import Mathlib

/-!
Verification of the client-side pagination/reflow engine of the
study-notes application (`src/components/Notebook.tsx`).

The engine works on rendered DOM nodes.  We embed the DOM fragment tree
shallowly: a node is either a text run or an element with a tag name,
computed top/bottom margins (`parseInt(style.marginTop) || 0`), and an
ordered child list.  Height measurement (`offsetHeight` of a node as laid
out in the fixed-width hidden container) is an oracle `Measure : DomNode →
Nat`: the code only ever reads heights of concrete trees, so a
deterministic height oracle over trees captures the browser layout pass.

The definitions below transcribe, in order:
 * `splitTextNode` (Notebook.tsx lines 74-119), word-boundary text splitting,
 * `splitNode` / its child loop (lines 122-196), recursive node splitting,
 * the page allocator loop (lines 198-278), queue-based page assignment,
 * the not-ready guard of the pagination pass (lines 198-200).
-/

namespace Notebook

/-- A DOM node as seen by the pagination engine: a text run, or an element
with a tag name, top margin, bottom margin (in px) and a child list. -/
inductive DomNode : Type where
  | text : String → DomNode
  | elem : String → Nat → Nat → List DomNode → DomNode
deriving Repr

/-- The height-measurement oracle: `m t` is the `offsetHeight` of the tree
`t` rendered in the hidden fixed-width container. -/
abbrev Measure := DomNode → Nat

mutual
/-- Textual content of a node (`textContent`): all text runs, in order. -/
def content : DomNode → String
  | .text s => s
  | .elem _ _ _ cs => contentList cs

/-- Concatenated textual content of a node list, in order. -/
def contentList : List DomNode → String
  | [] => ""
  | c :: cs => content c ++ contentList cs
end

/-- Textual content of an optional node; a null node contributes nothing. -/
def optContent : Option DomNode → String
  | none => ""
  | some n => content n

/-- `appendChild` on the model: append a child to an element's child list
(appending to a text node is impossible in the source and is a no-op). -/
def appendChild : DomNode → DomNode → DomNode
  | .text s, _ => .text s
  | .elem tag mt mb cs, c => .elem tag mt mb (cs ++ [c])

/-! ### Small String helpers (String is a wrapped `List Char`) -/

theorem strMk_append (a b : List Char) : String.mk a ++ String.mk b = String.mk (a ++ b) := rfl

theorem strAppend_assoc (a b c : String) : a ++ b ++ c = a ++ (b ++ c) := by
  rcases a with ⟨la⟩; rcases b with ⟨lb⟩; rcases c with ⟨lc⟩
  exact congrArg String.mk (List.append_assoc la lb lc)

theorem strEmpty_append (s : String) : "" ++ s = s := by
  rcases s with ⟨l⟩; rfl

theorem strAppend_empty (s : String) : s ++ "" = s := by
  rcases s with ⟨l⟩; exact congrArg String.mk (List.append_nil l)

/-- Concatenate a list of strings (`words.join('')` in the source). -/
def strJoin : List String → String
  | [] => ""
  | s :: ss => s ++ strJoin ss

theorem strJoin_append (a b : List String) : strJoin (a ++ b) = strJoin a ++ strJoin b := by
  induction a with
  | nil => simp [strJoin, strEmpty_append]
  | cons s ss ih => simp [strJoin, ih, strAppend_assoc]

/-! ### The tokenizer `textContent.split(/(\s+)/)`

JavaScript `split` with a captured separator returns the pieces between
maximal whitespace runs interleaved with the whitespace runs themselves,
with an empty leading (trailing) piece when the string starts (ends) with
whitespace, and `[""]` for the empty string. -/

/-- Whitespace test for the `\s` character class (the classes relevant to
markdown text). -/
def isWs (c : Char) : Bool :=
  c = ' ' || c = '\t' || c = '\n' || c = '\r' || c = '\x0b' || c = '\x0c'

/-- Group a character list into maximal runs of whitespace /
non-whitespace characters. -/
def splitRuns : List Char → List (List Char)
  | [] => []
  | c :: cs =>
    match splitRuns cs with
    | [] => [[c]]
    | [] :: rest => [c] :: rest
    | (d :: r) :: rest =>
      if isWs c = isWs d then (c :: d :: r) :: rest else [c] :: (d :: r) :: rest

theorem splitRuns_flatten (l : List Char) : (splitRuns l).flatten = l := by
  induction l with
  | nil => rfl
  | cons c cs ih =>
    simp only [splitRuns]
    rcases h : splitRuns cs with _ | ⟨r, rest⟩
    · simp [h] at ih; simp [ih]
    · rcases r with _ | ⟨d, r⟩
      · simp [h] at ih; simp [ih]
      · by_cases hw : isWs c = isWs d
        · simp [h] at ih; simp [hw, ih]
        · simp [h] at ih; simp [hw, ih]

/-- The empty boundary piece JS `split` inserts when the string starts or
ends with a separator run. -/
def wsPad (r : List Char) : List String :=
  match r with
  | c :: _ => if isWs c then [""] else []
  | [] => []

theorem strJoin_wsPad (r : List Char) : strJoin (wsPad r) = "" := by
  rcases r with _ | ⟨c, r⟩
  · rfl
  · by_cases hw : isWs c <;> simp [wsPad, hw] <;> rfl

/-- `s.split(/(\s+)/)`: the token list the text splitter scans over. -/
def jsTokens (s : String) : List String :=
  match splitRuns s.toList with
  | [] => [""]
  | r :: rs =>
    wsPad r ++ (r :: rs).map String.mk ++ wsPad ((r :: rs).getLast (by simp))

theorem strJoin_map_mk (rs : List (List Char)) :
    strJoin (rs.map String.mk) = String.mk rs.flatten := by
  induction rs with
  | nil => rfl
  | cons r rest ih => simp only [List.map_cons, strJoin, ih, List.flatten_cons]; rfl

/-- Reassembling the tokens gives back the original string: the tokenizer
drops and duplicates nothing. -/
theorem strJoin_jsTokens (s : String) : strJoin (jsTokens s) = s := by
  unfold jsTokens
  rcases h : splitRuns s.toList with _ | ⟨r, rs⟩
  · have hnil := splitRuns_flatten s.toList
    rw [h] at hnil
    simp only [List.flatten_nil] at hnil
    rcases s with ⟨l⟩
    simp only [String.toList] at hnil
    rw [← hnil]; rfl
  · have hj : (splitRuns s.toList).flatten = s.toList := splitRuns_flatten s.toList
    rw [h] at hj
    rw [strJoin_append, strJoin_append, strJoin_wsPad, strJoin_wsPad,
      strJoin_map_mk, strEmpty_append, strAppend_empty, hj]
    rcases s with ⟨l⟩; rfl

theorem jsTokens_ne_nil (s : String) : jsTokens s ≠ [] := by
  unfold jsTokens
  rcases h : splitRuns s.toList with _ | ⟨r, rs⟩ <;> simp

/-! ### `splitTextNode` (Notebook.tsx lines 74-119)

The source appends a temporary text node to `container` (the head clone
being built), grows it word by word, and breaks at the first word whose
addition makes `container.offsetHeight` exceed `maxLimit`; `currentText`
is the accumulated prefix.  `scanSplit` returns the word lists before and
from the break point (`words.slice(0, splitIndex)` / `words.slice(splitIndex)`),
or `none` when the loop finishes without overflowing. -/

def scanSplit (m : Measure) (container : DomNode) (maxLimit : Int) :
    List String → String → Option (List String × List String)
  | [], _ => none
  | w :: ws, acc =>
    if (m (appendChild container (.text (acc ++ w))) : Int) > maxLimit then
      some ([], w :: ws)
    else
      match scanSplit m container maxLimit ws (acc ++ w) with
      | some (pre, suf) => some (w :: pre, suf)
      | none => none

/-- `splitTextNode(textNode, maxLimit, container)`: split a text run at a
whitespace-token boundary so that the head, measured inside `container`,
stays within `maxLimit`.  When the scan never overflows but the word list
is non-empty, the source returns a null head and the whole run as tail. -/
def splitTextNode (m : Measure) (s : String) (maxLimit : Int) (container : DomNode) :
    Option DomNode × Option DomNode :=
  match scanSplit m container maxLimit (jsTokens s) "" with
  | some (pre, suf) => (some (.text (strJoin pre)), some (.text (strJoin suf)))
  | none =>
    if (jsTokens s).length > 0 then (none, some (.text (strJoin (jsTokens s))))
    else (none, none)

/-! ### `splitNode` (Notebook.tsx lines 122-196) -/

/-- The `isSplittable` test of the child loop (lines 153-154): a text node,
or an element whose tag is `P`, `DIV`, `BLOCKQUOTE` or `LI`. -/
def isSplittableChild : DomNode → Bool
  | .text _ => true
  | .elem tag _ _ _ => ["P", "DIV", "BLOCKQUOTE", "LI"].contains tag

mutual
/-- `splitNode(node, maxLimit)`: clone the node twice (head clone with
`marginBottom = 0`, tail clone with `marginTop = 0`), distribute the
children between the clones, and return `null` for a clone that ends up
with no child nodes. -/
def splitNode (m : Measure) (node : DomNode) (maxLimit : Int) :
    Option DomNode × Option DomNode :=
  match node with
  | .text _ => (none, none)
  | .elem tag mt mb children =>
    let r := splitChildren m tag mt mb maxLimit children [] [] false
    (if r.1.isEmpty then none else some (.elem tag mt 0 r.1),
     if r.2.isEmpty then none else some (.elem tag 0 mb r.2))

/-- The child loop of `splitNode` (lines 136-187): `c1`/`c2` are the child
lists of the head and tail clones built so far.  Each child is tentatively
appended to the head clone and the clone re-measured; the child that
overflows is removed and, when splittable with more than 20px of room
left, split recursively (text children via `splitTextNode`, measured
against the total limit `remainingSpace + currentHeight`); otherwise it
and everything after it moves to the tail clone. -/
def splitChildren (m : Measure) (tag : String) (mt mb : Nat) (maxLimit : Int)
    (pending c1 c2 : List DomNode) (overflowed : Bool) : List DomNode × List DomNode :=
  match pending with
  | [] => (c1, c2)
  | child :: rest =>
    if overflowed then
      splitChildren m tag mt mb maxLimit rest c1 (c2 ++ [child]) true
    else if (m (.elem tag mt 0 (c1 ++ [child])) : Int) > maxLimit then
      let currentHeight : Int := (m (.elem tag mt 0 c1) : Int)
      let remainingSpace : Int := maxLimit - currentHeight
      if isSplittableChild child ∧ remainingSpace > 20 then
        let parts :=
          match child with
          | .text s => splitTextNode m s (remainingSpace + currentHeight) (.elem tag mt 0 c1)
          | _ => splitNode m child remainingSpace
        match parts.2 with
        | some p2 =>
          splitChildren m tag mt mb maxLimit rest
            (match parts.1 with
             | some p1 => c1 ++ [p1]
             | none => c1) (c2 ++ [p2]) true
        | none =>
          match parts.1 with
          | none => splitChildren m tag mt mb maxLimit rest c1 (c2 ++ [child]) true
          | some p1 => splitChildren m tag mt mb maxLimit rest (c1 ++ [p1]) c2 false
      else
        splitChildren m tag mt mb maxLimit rest c1 (c2 ++ [child]) true
    else
      splitChildren m tag mt mb maxLimit rest (c1 ++ [child]) c2 false
end

/-! ### The page allocator (Notebook.tsx lines 198-278) -/

/-- `MAX_PAGE_HEIGHT` (line 207). -/
def MAX_PAGE_HEIGHT : Nat := 760

/-- `parseInt(style.marginTop) || 0`. -/
def marginTopOf : DomNode → Nat
  | .text _ => 0
  | .elem _ mt _ _ => mt

/-- `parseInt(style.marginBottom) || 0`. -/
def marginBottomOf : DomNode → Nat
  | .text _ => 0
  | .elem _ _ mb _ => mb

/-- `tagName`; text nodes never occur on the allocator queue in the source
(the queue holds the element children of the hidden container). -/
def tagOf : DomNode → String
  | .text _ => ""
  | .elem tag _ _ _ => tag

/-- The allocator's splittable-tag test (line 231). -/
def canSplitTag (tag : String) : Bool :=
  ["P", "UL", "OL", "BLOCKQUOTE", "DIV"].contains tag

/-- `totalNodeHeight = node.offsetHeight + marginTop + marginBottom` (line 220). -/
def totalNodeHeight (m : Measure) (n : DomNode) : Nat :=
  m n + marginTopOf n + marginBottomOf n

/-- Allocator loop state: the work queue, the current page accumulator and
its running height, and the finished pages. -/
structure AllocState where
  queue : List DomNode
  cur : List DomNode
  curH : Nat
  pages : List (List DomNode)
deriving Repr

/-- One iteration of the allocator `while` loop (lines 212-271), processing
the dequeued `node` against the remaining `rest` of the queue. -/
def allocStep (m : Measure) (node : DomNode) (rest cur : List DomNode) (curH : Nat)
    (pages : List (List DomNode)) : AllocState :=
  let tnh := totalNodeHeight m node
  if curH + tnh ≤ MAX_PAGE_HEIGHT then
    ⟨rest, cur ++ [node], curH + tnh, pages⟩
  else
    let remainingSpace : Int :=
      (MAX_PAGE_HEIGHT : Int) - (curH : Int) - (marginTopOf node : Int)
    if canSplitTag (tagOf node) ∧ remainingSpace > 40 then
      let parts := splitNode m node remainingSpace
      let cur' :=
        match parts.1 with
        | some p1 => cur ++ [p1]
        | none => cur
      let pages' := if cur'.isEmpty then pages else pages ++ [cur']
      match parts.2 with
      | some p2 => ⟨p2 :: rest, [], 0, pages'⟩
      | none =>
        match parts.1 with
        | none => ⟨node :: rest, [], 0, pages'⟩
        | some _ => ⟨rest, [], 0, pages'⟩
    else
      let pages' := if cur.isEmpty then pages else pages ++ [cur]
      -- the source resets currentHeight to 0 (line 261) and immediately
      -- tests `currentHeight === 0` (line 263), so the forced-placement
      -- branch is always taken and the re-queue branch (line 267) is dead
      let curH0 : Nat := 0
      if curH0 = 0 then ⟨rest, [node], curH0 + tnh, pages'⟩
      else ⟨node :: rest, [], curH0, pages'⟩

/-- The allocator loop with explicit fuel (the source's `while` has no
built-in bound; `none` means the loop was still running after `fuel`
iterations).  When the queue empties, any non-empty accumulator is
flushed as the final page (lines 273-276). -/
def allocRun (m : Measure) : Nat → AllocState → Option (List (List DomNode))
  | 0, _ => none
  | fuel + 1, s =>
    match s.queue with
    | [] => some (if s.cur.isEmpty then s.pages else s.pages ++ [s.cur])
    | node :: rest => allocRun m fuel (allocStep m node rest s.cur s.curH s.pages)

/-- The full pagination pass over the flat top-level block sequence. -/
def paginate (m : Measure) (fuel : Nat) (sourceNodes : List DomNode) :
    Option (List (List DomNode)) :=
  allocRun m fuel ⟨sourceNodes, [], 0, []⟩

/-- The debounced pagination pass of the Notebook component: if the hidden
measurement surface is not attached (`!hiddenRenderRef.current`, lines
198-200), the pass returns without touching the previously committed page
list; otherwise `setPages(newPages)` commits the allocator's output (and a
pass that never finishes commits nothing). -/
def notebookPass (surfaceAttached : Bool) (m : Measure) (fuel : Nat)
    (sourceNodes : List DomNode) (prevPages : List (List DomNode)) :
    List (List DomNode) :=
  if surfaceAttached then (paginate m fuel sourceNodes).getD prevPages
  else prevPages

/-! ### Helper lemmas: content -/

theorem contentList_append (xs ys : List DomNode) :
    contentList (xs ++ ys) = contentList xs ++ contentList ys := by
  induction xs with
  | nil => simp [contentList, strEmpty_append]
  | cons c cs ih =>
    simp only [List.cons_append, contentList, List.append_eq, ih, strAppend_assoc]

theorem contentList_one (n : DomNode) : contentList [n] = content n := by
  simp [contentList, strAppend_empty]

/-- Concatenated content of a page list, in page order. -/
def pagesContent : List (List DomNode) → String
  | [] => ""
  | pg :: pgs => contentList pg ++ pagesContent pgs

theorem pagesContent_append (xs ys : List (List DomNode)) :
    pagesContent (xs ++ ys) = pagesContent xs ++ pagesContent ys := by
  induction xs with
  | nil => simp [pagesContent, strEmpty_append]
  | cons pg pgs ih =>
    simp only [List.cons_append, pagesContent, List.append_eq, ih, strAppend_assoc]

theorem pagesContent_one (pg : List DomNode) : pagesContent [pg] = contentList pg := by
  simp [pagesContent, strAppend_empty]

/-! ### Helper lemmas: the child loop after overflow -/

/-- Once `overflowed` is set, every remaining child is cloned onto the tail
clone in order (lines 137-140). -/
theorem splitChildren_true (m : Measure) (tag : String) (mt mb : Nat) (L : Int)
    (pending : List DomNode) : ∀ (c1 c2 : List DomNode),
    splitChildren m tag mt mb L pending c1 c2 true = (c1, c2 ++ pending) := by
  induction pending with
  | nil => intro c1 c2; simp [splitChildren]
  | cons child rest ih =>
    intro c1 c2
    rw [splitChildren, if_pos rfl, ih]
    simp

/-! ### Helper lemmas: the word scan -/

theorem scanSplit_eq_append (m : Measure) (c : DomNode) (L : Int) :
    ∀ (ws : List String) (acc : String) (pre suf : List String),
      scanSplit m c L ws acc = some (pre, suf) → ws = pre ++ suf := by
  intro ws
  induction ws with
  | nil => intro acc pre suf h; simp [scanSplit] at h
  | cons w ws ih =>
    intro acc pre suf h
    rw [scanSplit] at h
    by_cases hov : (m (appendChild c (.text (acc ++ w))) : Int) > L
    · rw [if_pos hov] at h
      simp only [Option.some.injEq, Prod.mk.injEq] at h
      obtain ⟨rfl, rfl⟩ := h
      rfl
    · rw [if_neg hov] at h
      rcases hrec : scanSplit m c L ws (acc ++ w) with _ | ⟨pre', suf'⟩
      · rw [hrec] at h; simp at h
      · rw [hrec] at h
        simp only [Option.some.injEq, Prod.mk.injEq] at h
        obtain ⟨rfl, rfl⟩ := h
        have := ih (acc ++ w) pre' suf' hrec
        simp [this]

/-- When the scan breaks, the tail starts with the word whose addition
overflowed, and every non-empty sub-prefix of the head prefix fit. -/
theorem scanSplit_some_spec (m : Measure) (c : DomNode) (L : Int) :
    ∀ (ws : List String) (acc : String) (pre suf : List String),
      scanSplit m c L ws acc = some (pre, suf) →
      (∃ w suf', suf = w :: suf' ∧
        (m (appendChild c (.text (acc ++ (strJoin pre ++ w)))) : Int) > L) ∧
      (∀ k, 0 < k → k ≤ pre.length →
        (m (appendChild c (.text (acc ++ strJoin (pre.take k)))) : Int) ≤ L) := by
  intro ws
  induction ws with
  | nil => intro acc pre suf h; simp [scanSplit] at h
  | cons w ws ih =>
    intro acc pre suf h
    rw [scanSplit] at h
    by_cases hov : (m (appendChild c (.text (acc ++ w))) : Int) > L
    · rw [if_pos hov] at h
      simp only [Option.some.injEq, Prod.mk.injEq] at h
      obtain ⟨rfl, rfl⟩ := h
      refine ⟨⟨w, ws, rfl, ?_⟩, ?_⟩
      · simpa [strJoin, strEmpty_append] using hov
      · intro k hk hk'; simp at hk'; omega
    · rw [if_neg hov] at h
      rcases hrec : scanSplit m c L ws (acc ++ w) with _ | ⟨pre', suf'⟩
      · rw [hrec] at h; simp at h
      · rw [hrec] at h
        simp only [Option.some.injEq, Prod.mk.injEq] at h
        obtain ⟨rfl, rfl⟩ := h
        obtain ⟨⟨w', suf'', hsuf, hov'⟩, hfit⟩ := ih (acc ++ w) pre' suf' hrec
        constructor
        · refine ⟨w', suf'', hsuf, ?_⟩
          simpa [strJoin, strAppend_assoc] using hov'
        · intro k hk hk'
          match k, hk with
          | 1, _ =>
            simpa [strJoin, strAppend_empty] using le_of_not_lt hov
          | (j + 2), _ =>
            have hj' : j + 1 ≤ pre'.length := by
              simp only [List.length_cons] at hk'; omega
            have := hfit (j + 1) (Nat.succ_pos j) hj'
            simpa [strJoin, strAppend_assoc] using this

/-- When the scan finishes without breaking, every non-empty prefix of the
word list fit. -/
theorem scanSplit_none_spec (m : Measure) (c : DomNode) (L : Int) :
    ∀ (ws : List String) (acc : String),
      scanSplit m c L ws acc = none →
      ∀ k, 0 < k → k ≤ ws.length →
        (m (appendChild c (.text (acc ++ strJoin (ws.take k)))) : Int) ≤ L := by
  intro ws
  induction ws with
  | nil => intro acc _ k hk hk'; simp at hk'; omega
  | cons w ws ih =>
    intro acc h k hk hk'
    rw [scanSplit] at h
    by_cases hov : (m (appendChild c (.text (acc ++ w))) : Int) > L
    · rw [if_pos hov] at h; simp at h
    · rw [if_neg hov] at h
      rcases hrec : scanSplit m c L ws (acc ++ w) with _ | p
      · match k, hk with
        | 1, _ => simpa [List.take, strJoin, strAppend_empty] using le_of_not_lt hov
        | (j + 2), _ =>
          have hj' : j + 1 ≤ ws.length := by
            simp only [List.length_cons] at hk'; omega
          have := ih (acc ++ w) hrec (j + 1) (Nat.succ_pos j) hj'
          simpa [List.take, strJoin, strAppend_assoc] using this
      · rw [hrec] at h; simp at h

/-! ### Helper lemmas: `splitTextNode` -/

/-- The two result shapes of `splitTextNode`: a token-boundary split, or a
null head with the whole run as tail (the word list is never empty, so the
source's `[null, null]` fallback at line 118 is unreachable). -/
theorem splitTextNode_cases (m : Measure) (s : String) (L : Int) (c : DomNode) :
    (∃ pre suf, scanSplit m c L (jsTokens s) "" = some (pre, suf) ∧
      splitTextNode m s L c = (some (.text (strJoin pre)), some (.text (strJoin suf))))
    ∨ (scanSplit m c L (jsTokens s) "" = none ∧
      splitTextNode m s L c = (none, some (.text s))) := by
  rcases h : scanSplit m c L (jsTokens s) "" with _ | ⟨pre, suf⟩
  · right
    refine ⟨rfl, ?_⟩
    unfold splitTextNode
    rw [h]
    have hpos : 0 < (jsTokens s).length :=
      List.length_pos.mpr (jsTokens_ne_nil s)
    simp [hpos, strJoin_jsTokens]
  · left
    refine ⟨pre, suf, rfl, ?_⟩
    unfold splitTextNode
    rw [h]

/-- Head and tail of a text split reassemble the original run. -/
theorem splitTextNode_content (m : Measure) (s : String) (L : Int) (c : DomNode) :
    optContent (splitTextNode m s L c).1 ++ optContent (splitTextNode m s L c).2 = s := by
  rcases splitTextNode_cases m s L c with ⟨pre, suf, hscan, heq⟩ | ⟨hscan, heq⟩
  · rw [heq]
    have hps : jsTokens s = pre ++ suf := scanSplit_eq_append m c L _ _ _ _ hscan
    simp only [optContent, content]
    rw [← strJoin_append, ← hps, strJoin_jsTokens]
  · rw [heq]
    simp only [optContent, content, strEmpty_append]

/-! ### Helper lemmas: content conservation through `splitNode` -/

theorem splitChildren_content (m : Measure) :
    ∀ (k : Nat) (pending : List DomNode), sizeOf pending ≤ k →
    ∀ (tag : String) (mt mb : Nat) (L : Int) (c1 : List DomNode),
      contentList (splitChildren m tag mt mb L pending c1 [] false).1 ++
        contentList (splitChildren m tag mt mb L pending c1 [] false).2
        = contentList c1 ++ contentList pending := by
  intro k
  induction k with
  | zero =>
    intro pending hp
    exfalso
    cases pending <;> simp at hp
  | succ n ih =>
    intro pending hp tag mt mb L c1
    match pending with
    | [] => simp [splitChildren, contentList, strAppend_empty]
    | child :: rest =>
      have hrest : sizeOf rest ≤ n := by
        simp only [List.cons.sizeOf_spec] at hp; omega
      rcases child with s | ⟨tag', mt', mb', cs'⟩
      · -- text child
        simp only [splitChildren, Bool.false_eq_true, if_false]
        by_cases hov : (m (.elem tag mt 0 (c1 ++ [.text s])) : Int) > L
        · rw [if_pos hov]
          by_cases hsp : isSplittableChild (DomNode.text s) = true ∧
              L - (m (.elem tag mt 0 c1) : Int) > 20
          · rw [if_pos hsp]
            rcases splitTextNode_cases m s
                (L - (m (.elem tag mt 0 c1) : Int) + (m (.elem tag mt 0 c1) : Int))
                (.elem tag mt 0 c1) with ⟨pre, suf, hscan, heq⟩ | ⟨hscan, heq⟩
            · rw [heq]
              have hps : jsTokens s = pre ++ suf :=
                scanSplit_eq_append m _ _ _ _ _ _ hscan
              have hjoin : strJoin pre ++ strJoin suf = s := by
                rw [← strJoin_append, ← hps, strJoin_jsTokens]
              simp only [splitChildren_true]
              simp only [contentList_append, contentList, content, List.nil_append,
                List.append_eq, strEmpty_append, strAppend_empty]
              rw [← hjoin]
              simp [strAppend_assoc]
            · rw [heq]
              simp only [splitChildren_true]
              simp [contentList_append, contentList, content, strAppend_assoc]
          · rw [if_neg hsp]
            simp only [splitChildren_true]
            simp [contentList_append, contentList, content, strAppend_assoc]
        · rw [if_neg hov]
          have hstep := ih rest hrest tag mt mb L (c1 ++ [.text s])
          rw [hstep]
          simp [contentList_append, contentList, content, strAppend_assoc]
      · -- element child
        have hcs : sizeOf cs' ≤ n := by
          simp only [List.cons.sizeOf_spec, DomNode.elem.sizeOf_spec] at hp; omega
        simp only [splitChildren, Bool.false_eq_true, if_false]
        by_cases hov : (m (.elem tag mt 0 (c1 ++ [.elem tag' mt' mb' cs'])) : Int) > L
        · rw [if_pos hov]
          by_cases hsp : isSplittableChild (DomNode.elem tag' mt' mb' cs') = true ∧
              L - (m (.elem tag mt 0 c1) : Int) > 20
          · rw [if_pos hsp]
            simp only [splitNode]
            rcases hr : splitChildren m tag' mt' mb'
                (L - (m (.elem tag mt 0 c1) : Int)) cs' [] [] false with ⟨r1, r2⟩
            have hIH : contentList r1 ++ contentList r2 = contentList cs' := by
              have := ih cs' hcs tag' mt' mb' (L - (m (.elem tag mt 0 c1) : Int)) []
              rw [hr] at this
              simpa [contentList, strEmpty_append] using this
            rcases r2 with _ | ⟨x2, r2'⟩
            · -- tail clone empty
              rcases r1 with _ | ⟨x1, r1'⟩
              · -- both clones empty: whole child moves to the tail clone
                simp only [List.isEmpty_nil, if_true, List.nil_append]
                simp only [splitChildren_true]
                simp [contentList_append, contentList, content, strAppend_assoc]
              · -- head-only split: keep scanning with the head fragment kept
                simp only [List.isEmpty_nil, List.isEmpty_cons, Bool.false_eq_true,
                  if_false, if_true]
                have hstep := ih rest hrest tag mt mb L (c1 ++ [.elem tag' mt' 0 (x1 :: r1')])
                rw [hstep]
                simp only [contentList, strAppend_empty] at hIH
                simp only [contentList_append, contentList, content, List.nil_append,
                  List.append_eq, strEmpty_append, strAppend_empty]
                rw [← hIH]
                simp [strAppend_assoc]
            · -- tail clone non-empty
              rcases r1 with _ | ⟨x1, r1'⟩
              · simp only [List.isEmpty_nil, List.isEmpty_cons, Bool.false_eq_true,
                  if_false, if_true]
                simp only [splitChildren_true]
                simp only [contentList, strEmpty_append] at hIH
                simp only [contentList_append, contentList, content, List.nil_append,
                  List.append_eq, strEmpty_append, strAppend_empty]
                rw [← hIH]
              · simp only [List.isEmpty_cons, Bool.false_eq_true, if_false]
                simp only [splitChildren_true]
                simp only [contentList_append, contentList, content, List.nil_append,
                  List.append_eq, strEmpty_append, strAppend_empty]
                rw [← hIH]
                simp [contentList, strAppend_assoc]
          · rw [if_neg hsp]
            simp only [splitChildren_true]
            simp [contentList_append, contentList, content, strAppend_assoc]
        · rw [if_neg hov]
          have hstep := ih rest hrest tag mt mb L (c1 ++ [.elem tag' mt' mb' cs'])
          rw [hstep]
          simp [contentList_append, contentList, content, strAppend_assoc]

/-- Head and tail of a node split reassemble the node's content exactly. -/
theorem splitNode_content (m : Measure) (tag : String) (mt mb : Nat)
    (cs : List DomNode) (L : Int) :
    optContent (splitNode m (.elem tag mt mb cs) L).1 ++
      optContent (splitNode m (.elem tag mt mb cs) L).2
      = contentList cs := by
  simp only [splitNode]
  rcases hr : splitChildren m tag mt mb L cs [] [] false with ⟨r1, r2⟩
  have hIH : contentList r1 ++ contentList r2 = contentList cs := by
    have := splitChildren_content m (sizeOf cs) cs le_rfl tag mt mb L []
    rw [hr] at this
    simpa [contentList, strEmpty_append] using this
  rcases r1 with _ | ⟨x1, r1'⟩ <;> rcases r2 with _ | ⟨x2, r2'⟩ <;>
    simp only [List.isEmpty_nil, List.isEmpty_cons, if_pos, Bool.false_eq_true,
      if_false, optContent, content] <;>
    simp only [contentList, strEmpty_append, strAppend_empty] at hIH ⊢ <;>
    exact hIH

/-! ### Helper lemmas: shapes of the two clones -/

/-- The head clone keeps the node's tag and top margin with a zeroed bottom
margin; the tail clone keeps the tag and bottom margin with a zeroed top
margin; a clone left without child nodes becomes null. -/
theorem splitNode_shape (m : Measure) (tag : String) (mt mb : Nat)
    (cs : List DomNode) (L : Int) :
    ((splitNode m (.elem tag mt mb cs) L).1 = none ∨
      ∃ c1, c1 ≠ [] ∧ (splitNode m (.elem tag mt mb cs) L).1 = some (.elem tag mt 0 c1)) ∧
    ((splitNode m (.elem tag mt mb cs) L).2 = none ∨
      ∃ c2, c2 ≠ [] ∧ (splitNode m (.elem tag mt mb cs) L).2 = some (.elem tag 0 mb c2)) := by
  simp only [splitNode]
  rcases splitChildren m tag mt mb L cs [] [] false with ⟨r1, r2⟩
  constructor
  · rcases r1 with _ | ⟨x, r⟩
    · left; simp
    · right; exact ⟨x :: r, by simp, by simp⟩
  · rcases r2 with _ | ⟨x, r⟩
    · left; simp
    · right; exact ⟨x :: r, by simp, by simp⟩

/-! ### Helper lemmas: the head clone respects the budget

These require two facts about the layout oracle: measuring an element is
subadditive under appending one more child (the new child contributes at
most its own standalone height), and an empty text run has zero height.
Both hold for real block layout at the granularity the splitter relies on. -/

theorem splitChildren_headBound (m : Measure)
    (HA : ∀ (tag : String) (mt : Nat) (cs : List DomNode) (c : DomNode),
      m (.elem tag mt 0 (cs ++ [c])) ≤ m (.elem tag mt 0 cs) + m c)
    (HT : m (.text "") = 0) :
    ∀ (k : Nat) (pending : List DomNode), sizeOf pending ≤ k →
    ∀ (tag : String) (mt mb : Nat) (L : Int) (c1 c2 : List DomNode) (ov : Bool),
      (c1 = [] ∨ (m (.elem tag mt 0 c1) : Int) ≤ L) →
      ((splitChildren m tag mt mb L pending c1 c2 ov).1 = [] ∨
        (m (.elem tag mt 0 (splitChildren m tag mt mb L pending c1 c2 ov).1) : Int) ≤ L) := by
  intro k
  induction k with
  | zero =>
    intro pending hp
    exfalso
    cases pending <;> simp at hp
  | succ n ih =>
    intro pending hp tag mt mb L c1 c2 ov hinv
    cases ov
    case true =>
      rw [splitChildren_true]
      exact hinv
    case false =>
    match pending with
    | [] => exact hinv
    | child :: rest =>
      have hrest : sizeOf rest ≤ n := by
        simp only [List.cons.sizeOf_spec] at hp; omega
      rcases child with s | ⟨tag', mt', mb', cs'⟩
      · -- text child
        simp only [splitChildren, Bool.false_eq_true, if_false]
        by_cases hov : (m (.elem tag mt 0 (c1 ++ [.text s])) : Int) > L
        · rw [if_pos hov]
          by_cases hsp : isSplittableChild (DomNode.text s) = true ∧
              L - (m (.elem tag mt 0 c1) : Int) > 20
          · rw [if_pos hsp]
            have hCH : (m (.elem tag mt 0 c1) : Int) < L := by
              have := hsp.2; omega
            rcases splitTextNode_cases m s
                (L - (m (.elem tag mt 0 c1) : Int) + (m (.elem tag mt 0 c1) : Int))
                (.elem tag mt 0 c1) with ⟨pre, suf, hscan, heq⟩ | ⟨hscan, heq⟩
            · rw [heq]
              simp only [splitChildren_true]
              right
              rcases pre with _ | ⟨w0, pre'⟩
              · -- empty prefix: the head fragment is an empty text run
                have hA := HA tag mt c1 (.text (strJoin []))
                have hT : m (.text (strJoin ([] : List String))) = 0 := HT
                omega
              · -- non-empty prefix: the scan measured exactly this tree and it fit
                have hspec := scanSplit_some_spec m (.elem tag mt 0 c1)
                  (L - (m (.elem tag mt 0 c1) : Int) + (m (.elem tag mt 0 c1) : Int))
                  (jsTokens s) "" (w0 :: pre') suf hscan
                have hfit := hspec.2 (w0 :: pre').length (by simp) le_rfl
                rw [List.take_length] at hfit
                simp only [appendChild, strEmpty_append] at hfit
                have hL : L - (m (.elem tag mt 0 c1) : Int) + (m (.elem tag mt 0 c1) : Int)
                    = L := by ring
                rw [hL] at hfit
                exact hfit
            · rw [heq]
              simp only [splitChildren_true]
              exact hinv
          · rw [if_neg hsp]
            simp only [splitChildren_true]
            exact hinv
        · rw [if_neg hov]
          exact ih rest hrest tag mt mb L _ _ false (Or.inr (le_of_not_lt hov))
      · -- element child
        have hcs : sizeOf cs' ≤ n := by
          simp only [List.cons.sizeOf_spec, DomNode.elem.sizeOf_spec] at hp; omega
        simp only [splitChildren, Bool.false_eq_true, if_false]
        by_cases hov : (m (.elem tag mt 0 (c1 ++ [.elem tag' mt' mb' cs'])) : Int) > L
        · rw [if_pos hov]
          by_cases hsp : isSplittableChild (DomNode.elem tag' mt' mb' cs') = true ∧
              L - (m (.elem tag mt 0 c1) : Int) > 20
          · rw [if_pos hsp]
            have hCH : (m (.elem tag mt 0 c1) : Int) < L := by
              have := hsp.2; omega
            simp only [splitNode]
            rcases hr : splitChildren m tag' mt' mb'
                (L - (m (.elem tag mt 0 c1) : Int)) cs' [] [] false with ⟨r1, r2⟩
            have hchild := ih cs' hcs tag' mt' mb'
              (L - (m (.elem tag mt 0 c1) : Int)) [] [] false (Or.inl rfl)
            rw [hr] at hchild
            rcases r1 with _ | ⟨x1, r1'⟩
            · -- head of the child split is null: c1 is left unchanged
              simp only [List.isEmpty_nil, if_true]
              rcases r2 with _ | ⟨x2, r2'⟩
              · simp only [List.isEmpty_nil, if_true]
                simp only [splitChildren_true]
                exact hinv
              · simp only [List.isEmpty_cons, Bool.false_eq_true, if_false]
                simp only [splitChildren_true]
                exact hinv
            · -- head fragment kept: its standalone height fit the remaining space
              have hp1 : (m (.elem tag' mt' 0 (x1 :: r1')) : Int) ≤
                  L - (m (.elem tag mt 0 c1) : Int) := by
                rcases hchild with h | h
                · simp at h
                · exact h
              have hA := HA tag mt c1 (.elem tag' mt' 0 (x1 :: r1'))
              have hbound : (m (.elem tag mt 0 (c1 ++ [.elem tag' mt' 0 (x1 :: r1')])) : Int)
                  ≤ L := by omega
              simp only [List.isEmpty_cons, Bool.false_eq_true, if_false]
              rcases r2 with _ | ⟨x2, r2'⟩
              · simp only [List.isEmpty_nil, if_true]
                exact ih rest hrest tag mt mb L _ _ false (Or.inr hbound)
              · simp only [List.isEmpty_cons, Bool.false_eq_true, if_false]
                simp only [splitChildren_true]
                exact Or.inr hbound
          · rw [if_neg hsp]
            simp only [splitChildren_true]
            exact hinv
        · rw [if_neg hov]
          exact ih rest hrest tag mt mb L _ _ false (Or.inr (le_of_not_lt hov))

/-- A non-null head clone measures within the budget passed to `splitNode`. -/
theorem splitNode_headBound (m : Measure)
    (HA : ∀ (tag : String) (mt : Nat) (cs : List DomNode) (c : DomNode),
      m (.elem tag mt 0 (cs ++ [c])) ≤ m (.elem tag mt 0 cs) + m c)
    (HT : m (.text "") = 0)
    (tag : String) (mt mb : Nat) (cs : List DomNode) (L : Int) (h : DomNode)
    (hh : (splitNode m (.elem tag mt mb cs) L).1 = some h) :
    (m h : Int) ≤ L := by
  have hb := splitChildren_headBound m HA HT (sizeOf cs) cs le_rfl
    tag mt mb L [] [] false (Or.inl rfl)
  revert hh
  simp only [splitNode]
  rcases hr : splitChildren m tag mt mb L cs [] [] false with ⟨r1, r2⟩
  rw [hr] at hb
  rcases r1 with _ | ⟨x1, r1'⟩
  · simp
  · simp only [List.isEmpty_cons, Bool.false_eq_true, if_false, Option.some.injEq]
    intro hh
    rcases hb with hb | hb
    · simp at hb
    · exact hh ▸ (by simpa using hb)

/-! ### Helper lemmas: the allocator -/

/-- Height of a page: the sum of the measured heights of its nodes, margins
included — exactly the quantity the allocator accumulates in `currentHeight`. -/
def pageSum (m : Measure) (pg : List DomNode) : Nat :=
  (pg.map (totalNodeHeight m)).sum

theorem pageSum_nil (m : Measure) : pageSum m [] = 0 := rfl

theorem pageSum_append_one (m : Measure) (pg : List DomNode) (n : DomNode) :
    pageSum m (pg ++ [n]) = pageSum m pg + totalNodeHeight m n := by
  simp [pageSum]

theorem pageSum_one (m : Measure) (n : DomNode) :
    pageSum m [n] = totalNodeHeight m n := by
  simp [pageSum]

/-- A page is within bounds, or is a degenerate single-node page whose one
node is itself taller than the page. -/
def pageOK (m : Measure) (pg : List DomNode) : Prop :=
  pageSum m pg ≤ MAX_PAGE_HEIGHT ∨
    ∃ n, pg = [n] ∧ MAX_PAGE_HEIGHT < totalNodeHeight m n

/-- Allocator loop invariant: the running height is the accumulator's page
sum, the accumulator itself is a valid page, and all flushed pages are valid. -/
def stateOK (m : Measure) (s : AllocState) : Prop :=
  s.curH = pageSum m s.cur ∧
  (s.curH ≤ MAX_PAGE_HEIGHT ∨
    ∃ n, s.cur = [n] ∧ MAX_PAGE_HEIGHT < totalNodeHeight m n) ∧
  ∀ pg ∈ s.pages, pageOK m pg

theorem pagesContent_flush (pages : List (List DomNode)) (c : List DomNode) :
    pagesContent (if c.isEmpty then pages else pages ++ [c]) =
      pagesContent pages ++ contentList c := by
  rcases c with _ | ⟨x, c⟩
  · simp [contentList, strAppend_empty]
  · simp [pagesContent_append, pagesContent_one]

theorem mem_flush (pages : List (List DomNode)) (c pg : List DomNode)
    (h : pg ∈ (if c.isEmpty then pages else pages ++ [c])) :
    pg ∈ pages ∨ (pg = c ∧ c ≠ []) := by
  rcases c with _ | ⟨x, c⟩
  · simp at h; exact Or.inl h
  · simp only [List.isEmpty_cons, Bool.false_eq_true, if_false, List.mem_append,
      List.mem_singleton] at h
    rcases h with h | h
    · exact Or.inl h
    · exact Or.inr ⟨h, by simp⟩

/-- In the `canSplit` branch the dequeued node is an element (text nodes
have no tag name, and `''` is not a splittable tag). -/
theorem canSplit_not_text (s : String) : canSplitTag (tagOf (.text s)) = false := by
  rfl

theorem if_zero_eq_zero {α : Type} (a b : α) : (if (0 : Nat) = 0 then a else b) = a :=
  if_pos rfl

/-- One allocator iteration conserves content: the content committed to
pages, held in the accumulator and still queued is unchanged. -/
theorem allocStep_content (m : Measure) (node : DomNode) (rest cur : List DomNode)
    (curH : Nat) (pages : List (List DomNode)) :
    pagesContent (allocStep m node rest cur curH pages).pages ++
      contentList (allocStep m node rest cur curH pages).cur ++
      contentList (allocStep m node rest cur curH pages).queue
      = pagesContent pages ++ contentList cur ++ contentList (node :: rest) := by
  simp only [allocStep]
  by_cases hfit : curH + totalNodeHeight m node ≤ MAX_PAGE_HEIGHT
  · rw [if_pos hfit]
    simp [contentList_append, contentList, strAppend_assoc]
  · rw [if_neg hfit]
    by_cases hcs : canSplitTag (tagOf node) = true ∧
        (MAX_PAGE_HEIGHT : Int) - (curH : Int) - (marginTopOf node : Int) > 40
    · rw [if_pos hcs]
      rcases node with s | ⟨tag, mt, mb, cs⟩
      · rw [canSplit_not_text] at hcs
        simp at hcs
      · have hcont := splitNode_content m tag mt mb cs
          ((MAX_PAGE_HEIGHT : Int) - (curH : Int) - (marginTopOf (.elem tag mt mb cs) : Int))
        rcases hparts : splitNode m (.elem tag mt mb cs)
            ((MAX_PAGE_HEIGHT : Int) - (curH : Int) -
              (marginTopOf (.elem tag mt mb cs) : Int)) with ⟨p1, p2⟩
        rw [hparts] at hcont
        rcases p1 with _ | p1 <;> rcases p2 with _ | p2 <;>
          (simp only [optContent, content, strEmpty_append, strAppend_empty] at hcont
           simp only [pagesContent_flush, contentList_append, contentList, content,
             List.isEmpty_nil, List.isEmpty_cons, List.append_nil, List.nil_append,
             strEmpty_append, strAppend_empty, strAppend_assoc]
           try (rw [← hcont]; try simp [contentList_append, contentList, strAppend_assoc]))
    · rw [if_neg hcs]
      simp only [if_true]
      simp [pagesContent_flush, contentList_append, contentList, strAppend_assoc,
        strEmpty_append, strAppend_empty]

/-- One allocator iteration preserves the height invariant. -/
theorem allocStep_stateOK (m : Measure)
    (HA : ∀ (tag : String) (mt : Nat) (cs : List DomNode) (c : DomNode),
      m (.elem tag mt 0 (cs ++ [c])) ≤ m (.elem tag mt 0 cs) + m c)
    (HT : m (.text "") = 0)
    (node : DomNode) (rest cur : List DomNode) (curH : Nat)
    (pages : List (List DomNode))
    (hsum : curH = pageSum m cur)
    (hcur : curH ≤ MAX_PAGE_HEIGHT ∨
      ∃ n, cur = [n] ∧ MAX_PAGE_HEIGHT < totalNodeHeight m n)
    (hpages : ∀ pg ∈ pages, pageOK m pg) :
    stateOK m (allocStep m node rest cur curH pages) := by
  have hcurOK : pageOK m cur := by
    rcases hcur with h | h
    · exact Or.inl (hsum ▸ h)
    · exact Or.inr h
  simp only [allocStep]
  by_cases hfit : curH + totalNodeHeight m node ≤ MAX_PAGE_HEIGHT
  · rw [if_pos hfit]
    refine ⟨by simp [pageSum_append_one, hsum], Or.inl hfit, hpages⟩
  · rw [if_neg hfit]
    by_cases hcs : canSplitTag (tagOf node) = true ∧
        (MAX_PAGE_HEIGHT : Int) - (curH : Int) - (marginTopOf node : Int) > 40
    · rw [if_pos hcs]
      rcases node with s | ⟨tag, mt, mb, cs⟩
      · rw [canSplit_not_text] at hcs
        simp at hcs
      · have hshape := (splitNode_shape m tag mt mb cs
          ((MAX_PAGE_HEIGHT : Int) - (curH : Int) -
            (marginTopOf (.elem tag mt mb cs) : Int))).1
        rcases hparts : splitNode m (.elem tag mt mb cs)
            ((MAX_PAGE_HEIGHT : Int) - (curH : Int) -
              (marginTopOf (.elem tag mt mb cs) : Int)) with ⟨p1, p2⟩
        rw [hparts] at hshape
        have hflushOK : ∀ pg ∈ (if cur.isEmpty then pages else pages ++ [cur]),
            pageOK m pg := by
          intro pg hpg
          rcases mem_flush pages cur pg hpg with h | ⟨rfl, _⟩
          · exact hpages pg h
          · exact hcurOK
        rcases p1 with _ | p1
        · -- no head fragment: the old accumulator alone is flushed
          rcases p2 with _ | p2 <;>
            exact ⟨by simp [pageSum_nil], Or.inl (by simp [MAX_PAGE_HEIGHT]), hflushOK⟩
        · -- head fragment appended, then flushed with the accumulator
          rcases hshape with h | ⟨c1, hne, hsome⟩
          · simp at h
          · simp only [Option.some.injEq] at hsome
            have hhb : (m p1 : Int) ≤
                (MAX_PAGE_HEIGHT : Int) - (curH : Int) -
                  (marginTopOf (.elem tag mt mb cs) : Int) := by
              apply splitNode_headBound m HA HT tag mt mb cs _ p1
              rw [hparts]
            have hp1h : totalNodeHeight m p1 = m p1 + mt := by
              rw [hsome]
              simp [totalNodeHeight, marginTopOf, marginBottomOf]
            have hsumOK : pageSum m (cur ++ [p1]) ≤ MAX_PAGE_HEIGHT := by
              rw [pageSum_append_one, ← hsum, hp1h]
              simp only [marginTopOf] at hhb
              omega
            have hflushOK' : ∀ pg ∈ (if (cur ++ [p1]).isEmpty then pages
                else pages ++ [cur ++ [p1]]), pageOK m pg := by
              intro pg hpg
              rcases mem_flush pages (cur ++ [p1]) pg hpg with h | ⟨rfl, _⟩
              · exact hpages pg h
              · exact Or.inl hsumOK
            rcases p2 with _ | p2 <;>
              exact ⟨by simp [pageSum_nil], Or.inl (by simp [MAX_PAGE_HEIGHT]), hflushOK'⟩
    · rw [if_neg hcs]
      simp only [if_true]
      have hflushOK : ∀ pg ∈ (if cur.isEmpty then pages else pages ++ [cur]),
          pageOK m pg := by
        intro pg hpg
        rcases mem_flush pages cur pg hpg with h | ⟨rfl, _⟩
        · exact hpages pg h
        · exact hcurOK
      refine ⟨by simp [pageSum_one], ?_, hflushOK⟩
      by_cases hbig : totalNodeHeight m node ≤ MAX_PAGE_HEIGHT
      · left
        show 0 + totalNodeHeight m node ≤ MAX_PAGE_HEIGHT
        omega
      · right
        exact ⟨node, rfl, by omega⟩

/-- One allocator iteration never records an empty page. -/
theorem allocStep_nonempty (m : Measure) (node : DomNode) (rest cur : List DomNode)
    (curH : Nat) (pages : List (List DomNode))
    (hpages : ∀ pg ∈ pages, pg ≠ []) :
    ∀ pg ∈ (allocStep m node rest cur curH pages).pages, pg ≠ [] := by
  simp only [allocStep]
  by_cases hfit : curH + totalNodeHeight m node ≤ MAX_PAGE_HEIGHT
  · rw [if_pos hfit]
    exact hpages
  · rw [if_neg hfit]
    by_cases hcs : canSplitTag (tagOf node) = true ∧
        (MAX_PAGE_HEIGHT : Int) - (curH : Int) - (marginTopOf node : Int) > 40
    · rw [if_pos hcs]
      rcases hparts : splitNode m node
          ((MAX_PAGE_HEIGHT : Int) - (curH : Int) -
            (marginTopOf node : Int)) with ⟨p1, p2⟩
      have hflush : ∀ (c : List DomNode), (∀ pg ∈ pages, pg ≠ []) →
          ∀ pg ∈ (if c.isEmpty then pages else pages ++ [c]), pg ≠ [] := by
        intro c hp pg hpg
        rcases mem_flush pages c pg hpg with h | ⟨rfl, hne⟩
        · exact hp pg h
        · exact hne
      rcases p1 with _ | p1 <;> rcases p2 with _ | p2 <;>
        exact hflush _ hpages
    · rw [if_neg hcs]
      simp only [if_true]
      intro pg hpg
      rcases mem_flush pages cur pg hpg with h | ⟨rfl, hne⟩
      · exact hpages pg h
      · exact hne

/-- Content conservation across any terminating allocator run. -/
theorem allocRun_content (m : Measure) :
    ∀ (fuel : Nat) (s : AllocState) (out : List (List DomNode)),
      allocRun m fuel s = some out →
      pagesContent out = pagesContent s.pages ++ contentList s.cur ++ contentList s.queue := by
  intro fuel
  induction fuel with
  | zero => intro s out h; simp [allocRun] at h
  | succ n ih =>
    intro s out h
    rw [allocRun] at h
    rcases s with ⟨queue, cur, curH, pages⟩
    rcases queue with _ | ⟨node, rest⟩
    · simp only [Option.some.injEq] at h
      subst h
      rw [pagesContent_flush]
      simp [contentList, strAppend_empty]
    · have hrec := ih _ _ h
      rw [hrec, allocStep_content]

/-- Every page of a terminating allocator run satisfies the height bound or
is a degenerate oversized single-node page. -/
theorem allocRun_pageOK (m : Measure)
    (HA : ∀ (tag : String) (mt : Nat) (cs : List DomNode) (c : DomNode),
      m (.elem tag mt 0 (cs ++ [c])) ≤ m (.elem tag mt 0 cs) + m c)
    (HT : m (.text "") = 0) :
    ∀ (fuel : Nat) (s : AllocState) (out : List (List DomNode)),
      stateOK m s → allocRun m fuel s = some out → ∀ pg ∈ out, pageOK m pg := by
  intro fuel
  induction fuel with
  | zero => intro s out _ h; simp [allocRun] at h
  | succ n ih =>
    intro s out hs h
    rw [allocRun] at h
    rcases s with ⟨queue, cur, curH, pages⟩
    obtain ⟨hsum, hcur, hpages⟩ := hs
    rcases queue with _ | ⟨node, rest⟩
    · simp only [Option.some.injEq] at h
      subst h
      intro pg hpg
      rcases mem_flush pages cur pg hpg with hmem | ⟨rfl, _⟩
      · exact hpages pg hmem
      · rcases hcur with hc | hc
        · exact Or.inl (hsum ▸ hc)
        · exact Or.inr hc
    · exact ih _ _ (allocStep_stateOK m HA HT node rest cur curH pages hsum hcur hpages) h

/-- No page of a terminating allocator run is empty. -/
theorem allocRun_nonempty (m : Measure) :
    ∀ (fuel : Nat) (s : AllocState) (out : List (List DomNode)),
      (∀ pg ∈ s.pages, pg ≠ []) → allocRun m fuel s = some out →
      ∀ pg ∈ out, pg ≠ [] := by
  intro fuel
  induction fuel with
  | zero => intro s out _ h; simp [allocRun] at h
  | succ n ih =>
    intro s out hpages h
    rw [allocRun] at h
    rcases s with ⟨queue, cur, curH, pages⟩
    rcases queue with _ | ⟨node, rest⟩
    · simp only [Option.some.injEq] at h
      subst h
      intro pg hpg
      rcases mem_flush pages cur pg hpg with hmem | ⟨rfl, hne⟩
      · exact hpages pg hmem
      · exact hne
    · exact ih _ _ (allocStep_nonempty m node rest cur curH pages hpages) h

/-! ### Concrete layout oracles for witnesses and counterexamples -/

/-- A simple layout oracle: the height of a tree is the length of its
textual content.  It is subadditive under appending a child and gives an
empty text run zero height. -/
def mLen : Measure := fun t => (content t).length

theorem mLen_subadd (tag : String) (mt : Nat) (cs : List DomNode) (c : DomNode) :
    mLen (.elem tag mt 0 (cs ++ [c])) ≤ mLen (.elem tag mt 0 cs) + mLen c := by
  apply le_of_eq
  show (content (.elem tag mt 0 (cs ++ [c]))).length
    = (content (.elem tag mt 0 cs)).length + (content c).length
  show (contentList (cs ++ [c])).length = (contentList cs).length + (content c).length
  rw [contentList_append, contentList_one, String.length_append]

theorem mLen_text_nil : mLen (.text "") = 0 := rfl

/-- Walking the child loop over a prefix of children that all fit, then
hitting an overflowing child with at most 20px of room left: the prefix
stays on the head clone and the overflowing child, with everything after
it, moves whole to the tail clone. -/
theorem splitChildren_tight (m : Measure) (tag : String) (mt mb : Nat) (L : Int)
    (li : DomNode) (post : List DomNode) :
    ∀ (pre c1 : List DomNode),
      (∀ k, k ≤ pre.length → (m (.elem tag mt 0 (c1 ++ pre.take k)) : Int) ≤ L) →
      (m (.elem tag mt 0 (c1 ++ pre ++ [li])) : Int) > L →
      L - (m (.elem tag mt 0 (c1 ++ pre)) : Int) ≤ 20 →
      splitChildren m tag mt mb L (pre ++ li :: post) c1 [] false
        = (c1 ++ pre, li :: post) := by
  intro pre
  induction pre with
  | nil =>
    intro c1 hfit hov hsp
    simp only [List.append_nil] at hov hsp
    simp only [List.nil_append, List.append_nil]
    simp only [splitChildren, Bool.false_eq_true, if_false]
    rw [if_pos hov]
    have hno : ¬(isSplittableChild li = true ∧
        L - (m (.elem tag mt 0 c1) : Int) > 20) := by
      rintro ⟨_, h⟩; omega
    rw [if_neg hno]
    rw [splitChildren_true]
    simp
  | cons p pre' ih =>
    intro c1 hfit hov hsp
    simp only [List.cons_append]
    simp only [splitChildren, Bool.false_eq_true, if_false]
    have h1 : ¬((m (.elem tag mt 0 (c1 ++ [p])) : Int) > L) := by
      have := hfit 1 (by simp)
      simpa using this
    rw [if_neg h1]
    have hfit' : ∀ k, k ≤ pre'.length →
        (m (.elem tag mt 0 ((c1 ++ [p]) ++ pre'.take k)) : Int) ≤ L := by
      intro k hk
      have := hfit (k + 1) (by simpa using hk)
      simpa [List.append_assoc] using this
    have hov' : (m (.elem tag mt 0 ((c1 ++ [p]) ++ pre' ++ [li])) : Int) > L := by
      simpa [List.append_assoc] using hov
    have hsp' : L - (m (.elem tag mt 0 ((c1 ++ [p]) ++ pre')) : Int) ≤ 20 := by
      simpa [List.append_assoc] using hsp
    have := ih (c1 ++ [p]) hfit' hov' hsp'
    rw [this]
    simp [List.append_assoc]

/-! ### Concrete inputs for witnesses and counterexamples -/

/-- A splittable element with no child nodes, as dequeued by the allocator. -/
def emptyPara : DomNode := .elem "P" 0 0 []

/-- A layout oracle that measures every tree as 800px tall — in particular
the childless paragraph above measures taller than a whole page. -/
def mTall : Measure := fun _ => 800

def liShort : DomNode := .elem "LI" 0 0 [.text "aaaa"]

def liLong : DomNode := .elem "LI" 0 0 [.text "cccccccccccccccccccc dddddddddd"]

def liLongB : DomNode := .elem "LI" 0 0 [.text "bbbbbbbbbbbbbbbbbbbbbbbbbbbbbb"]

def pSmall : DomNode := .elem "P" 24 24 [.text "hi"]

/-! ### Claim theorems -/

/-- Claim C1: content conservation — for every input block sequence on
which the allocator terminates, concatenating the textual content of all
produced pages, in page order, equals the textual content of the original
flat block sequence: nothing is dropped, duplicated or reordered. -/
theorem c1_content_conservation (m : Measure) (fuel : Nat) (ns : List DomNode)
    (pages : List (List DomNode)) (h : paginate m fuel ns = some pages) :
    pagesContent pages = contentList ns := by
  have hrun := allocRun_content m fuel ⟨ns, [], 0, []⟩ pages h
  simpa [pagesContent, contentList, strEmpty_append] using hrun

theorem c1_content_conservation_witness :
    paginate mLen 2 [pSmall] = some [[pSmall]] ∧
      pagesContent [[pSmall]] = contentList [pSmall] :=
  ⟨rfl, c1_content_conservation mLen 2 [pSmall] [[pSmall]] rfl⟩

/-- Claim C2: the allocator does NOT guarantee termination.  When
`splitNode` returns null for both head and tail (a splittable element with
no child nodes, measured taller than a page) the source re-queues the
original node unchanged (line 253) even though the accumulator is already
empty, so the loop revisits the identical state forever: for every fuel
bound the run is still unfinished and no page list is ever produced.  The
claimed forced-placement fallback does not exist in the code. -/
theorem c2_nontermination : ∀ fuel : Nat, paginate mTall fuel [emptyPara] = none := by
  intro fuel
  induction fuel with
  | zero => rfl
  | succ n ih => exact ih

/-- Claim C3 counterexample: `'LI'` is in the splitter's splittable-tag
set (line 154), so a list item that overflows the remaining budget with
more than 20px of room IS split internally: splitting this two-item list
at budget 30 puts the first half of item 2's text on the head fragment and
the rest on the tail fragment — the item does not move whole to the tail. -/
theorem c3_counterexample :
    splitNode mLen (.elem "UL" 0 0 [liShort, liLong]) 30 =
      (some (.elem "UL" 0 0 [liShort, .elem "LI" 0 0 [.text "cccccccccccccccccccc "]]),
       some (.elem "UL" 0 0 [.elem "LI" 0 0 [.text "dddddddddd"]])) ∧
    content (.elem "LI" 0 0 [.text "cccccccccccccccccccc "]) ≠ "" ∧
    content (.elem "LI" 0 0 [.text "cccccccccccccccccccc "]) ≠ content liLong := by
  refine ⟨rfl, ?_, ?_⟩ <;> decide

/-- Claim C3 (amended): a List's overflowing ListItem child moves whole to
the tail fragment (with all subsequent items) only when at most 20px of
the budget remains after the items already kept; with more room the item
is split internally like any other splittable child. -/
theorem c3_li_atomic_when_tight (m : Measure) (mt mb : Nat) (L : Int)
    (pre post : List DomNode) (li : DomNode)
    (hfit : ∀ k, k ≤ pre.length → (m (.elem "UL" mt 0 (pre.take k)) : Int) ≤ L)
    (hov : (m (.elem "UL" mt 0 (pre ++ [li])) : Int) > L)
    (hsp : L - (m (.elem "UL" mt 0 pre) : Int) ≤ 20) :
    splitNode m (.elem "UL" mt mb (pre ++ li :: post)) L =
      ((if pre.isEmpty then none else some (.elem "UL" mt 0 pre)),
       some (.elem "UL" 0 mb (li :: post))) := by
  simp only [splitNode]
  rw [splitChildren_tight m "UL" mt mb L li post pre []
    (by intro k hk; simpa using hfit k hk)
    (by simpa using hov) (by simpa using hsp)]
  rcases pre with _ | ⟨x, pre'⟩ <;> simp

theorem c3_li_atomic_when_tight_witness :
    splitNode mLen (.elem "UL" 0 0 ([liShort] ++ liLongB :: [])) 20 =
      ((if ([liShort] : List DomNode).isEmpty then none
        else some (.elem "UL" 0 0 [liShort])),
       some (.elem "UL" 0 0 [liLongB])) :=
  c3_li_atomic_when_tight mLen 0 0 20 [liShort] [] liLongB
    (by
      intro k hk
      have hk1 : k ≤ 1 := by simpa using hk
      interval_cases k <;> decide)
    (by decide) (by decide)

/-- Claim C4: height bound — with a layout oracle that is subadditive
under appending a child and measures an empty text run as 0, every page of
a terminating run has its measured height sum (margins included) within
`MAX_PAGE_HEIGHT`, except a degenerate page holding a single node that is
itself taller than a page. -/
theorem c4_height_bound (m : Measure)
    (HA : ∀ (tag : String) (mt : Nat) (cs : List DomNode) (c : DomNode),
      m (.elem tag mt 0 (cs ++ [c])) ≤ m (.elem tag mt 0 cs) + m c)
    (HT : m (.text "") = 0)
    (fuel : Nat) (ns : List DomNode) (pages : List (List DomNode))
    (h : paginate m fuel ns = some pages) :
    ∀ pg ∈ pages, pageSum m pg ≤ MAX_PAGE_HEIGHT ∨
      ∃ n, pg = [n] ∧ MAX_PAGE_HEIGHT < totalNodeHeight m n := by
  have hrun := allocRun_pageOK m HA HT fuel ⟨ns, [], 0, []⟩ pages
    ⟨rfl, Or.inl (by simp [MAX_PAGE_HEIGHT]), by simp⟩ h
  exact hrun

theorem c4_height_bound_witness :
    pageSum mLen [pSmall] ≤ MAX_PAGE_HEIGHT ∨
      ∃ n, ([pSmall] : List DomNode) = [n] ∧
        MAX_PAGE_HEIGHT < totalNodeHeight mLen n :=
  c4_height_bound mLen mLen_subadd mLen_text_nil 2 [pSmall] [[pSmall]] rfl
    [pSmall] (by simp)

/-- Claim C5: splitter reconstruction invariant — for every element node
and budget, the content of the head fragment concatenated with the content
of the tail fragment is exactly the node's content; likewise for every
text run split by `splitTextNode`. -/
theorem c5_split_reconstruction (m : Measure) (tag : String) (mt mb : Nat)
    (cs : List DomNode) (L : Int) (s : String) (L' : Int) (c : DomNode) :
    optContent (splitNode m (.elem tag mt mb cs) L).1 ++
      optContent (splitNode m (.elem tag mt mb cs) L).2
      = content (.elem tag mt mb cs) ∧
    optContent (splitTextNode m s L' c).1 ++ optContent (splitTextNode m s L' c).2
      = content (.text s) :=
  ⟨splitNode_content m tag mt mb cs L, splitTextNode_content m s L' c⟩

/-- Claim C6 counterexample: when even the first token does not fit (here
the budget is 0), the head is NOT null — the source returns an empty text
run (`createTextNode('')`, line 101) as head, with the whole run as tail. -/
theorem c6_counterexample :
    splitTextNode mLen "hello world" 0 (.elem "P" 0 0 []) =
      (some (.text ""), some (.text "hello world")) ∧
    (mLen (appendChild (.elem "P" 0 0 []) (.text "hello")) : Int) > 0 :=
  ⟨rfl, by decide⟩

/-- Claim C6 (amended): the text splitter cuts only at whitespace-token
boundaries: either it returns the scanned token prefix (every non-empty
sub-prefix of which measured within the budget) as head and the remaining
tokens — starting with the token whose addition overflowed — as tail, the
two reassembling to the original run; or no scanned prefix overflowed and
it returns a null head with the whole run as tail.  When even the first
token does not fit the head is the empty token prefix, i.e. an empty text
run rather than null. -/
theorem c6_text_split_amended (m : Measure) (s : String) (L : Int) (c : DomNode) :
    (∃ pre suf, jsTokens s = pre ++ suf ∧ suf ≠ [] ∧
      splitTextNode m s L c = (some (.text (strJoin pre)), some (.text (strJoin suf))) ∧
      strJoin pre ++ strJoin suf = s ∧
      (∃ w suf', suf = w :: suf' ∧
        (m (appendChild c (.text (strJoin pre ++ w))) : Int) > L) ∧
      (∀ k, 0 < k → k ≤ pre.length →
        (m (appendChild c (.text (strJoin (pre.take k)))) : Int) ≤ L)) ∨
    (splitTextNode m s L c = (none, some (.text s)) ∧
      ∀ k, 0 < k → k ≤ (jsTokens s).length →
        (m (appendChild c (.text (strJoin ((jsTokens s).take k)))) : Int) ≤ L) := by
  rcases splitTextNode_cases m s L c with ⟨pre, suf, hscan, heq⟩ | ⟨hscan, heq⟩
  · left
    have happ := scanSplit_eq_append m c L _ _ _ _ hscan
    obtain ⟨⟨w, suf', hsuf, hovf⟩, hfit⟩ := scanSplit_some_spec m c L _ _ _ _ hscan
    refine ⟨pre, suf, happ, by simp [hsuf], heq, ?_, ⟨w, suf', hsuf, ?_⟩, ?_⟩
    · rw [← strJoin_append, ← happ, strJoin_jsTokens]
    · rwa [strEmpty_append] at hovf
    · intro k hk hk'
      have := hfit k hk hk'
      rwa [strEmpty_append] at this
  · right
    refine ⟨heq, ?_⟩
    intro k hk hk'
    have := scanSplit_none_spec m c L _ _ hscan k hk hk'
    rwa [strEmpty_append] at this

/-- Claim C7: determinism — two pagination passes with the same
measurement oracle, fuel and block sequence produce identical page
lists; the allocator reads nothing but its inputs. -/
theorem c7_determinism (m₁ m₂ : Measure) (fuel₁ fuel₂ : Nat)
    (ns₁ ns₂ : List DomNode) (hm : m₁ = m₂) (hf : fuel₁ = fuel₂)
    (hn : ns₁ = ns₂) :
    paginate m₁ fuel₁ ns₁ = paginate m₂ fuel₂ ns₂ := by
  subst hm; subst hf; subst hn; rfl

theorem c7_determinism_witness :
    mLen = mLen ∧ paginate mLen 2 [pSmall] = paginate mLen 2 [pSmall] :=
  ⟨rfl, c7_determinism mLen mLen 2 2 [pSmall] [pSmall] rfl rfl rfl⟩

/-- Claim C8: margin handling at the cut — every head fragment returned by
`splitNode` keeps the node's tag and top margin and has its bottom margin
zeroed; every tail fragment keeps the tag and bottom margin and has its
top margin zeroed. -/
theorem c8_margin_zeroing (m : Measure) (tag : String) (mt mb : Nat)
    (cs : List DomNode) (L : Int) :
    ((splitNode m (.elem tag mt mb cs) L).1 = none ∨
      ∃ c1, (splitNode m (.elem tag mt mb cs) L).1 = some (.elem tag mt 0 c1)) ∧
    ((splitNode m (.elem tag mt mb cs) L).2 = none ∨
      ∃ c2, (splitNode m (.elem tag mt mb cs) L).2 = some (.elem tag 0 mb c2)) := by
  obtain ⟨h1, h2⟩ := splitNode_shape m tag mt mb cs L
  constructor
  · rcases h1 with h | ⟨c1, _, h⟩
    · exact Or.inl h
    · exact Or.inr ⟨c1, h⟩
  · rcases h2 with h | ⟨c2, _, h⟩
    · exact Or.inl h
    · exact Or.inr ⟨c2, h⟩

/-- Claim C9: not-ready atomicity — when the off-screen measurement
surface is not attached, the pagination pass leaves the previously
committed page list unchanged. -/
theorem c9_not_ready (b : Bool) (m : Measure) (fuel : Nat) (ns : List DomNode)
    (prev : List (List DomNode)) (hb : b = false) :
    notebookPass b m fuel ns prev = prev := by
  subst hb; rfl

theorem c9_not_ready_witness :
    (false = false) ∧
      notebookPass false mLen 1 [pSmall] [[liShort]] = [[liShort]] :=
  ⟨rfl, c9_not_ready false mLen 1 [pSmall] [[liShort]] rfl⟩

/-- Claim C10: no empty pages — every page of a terminating allocator run
holds at least one node: pages are only flushed when non-empty. -/
theorem c10_no_empty_pages (m : Measure) (fuel : Nat) (ns : List DomNode)
    (pages : List (List DomNode)) (h : paginate m fuel ns = some pages) :
    ∀ pg ∈ pages, pg ≠ [] :=
  allocRun_nonempty m fuel ⟨ns, [], 0, []⟩ pages (by simp) h

theorem c10_no_empty_pages_witness :
    paginate mLen 2 [pSmall] = some [[pSmall]] ∧ ([pSmall] : List DomNode) ≠ [] :=
  ⟨rfl, c10_no_empty_pages mLen 2 [pSmall] [[pSmall]] rfl [pSmall] (by simp)⟩

end Notebook
